import Mathlib

/-!
Shallow embedding of the memory system engine (src/memory_system.py): the
consolidation planning pipeline, the reranking service, the skip detector,
the embedding normalizer and the unified cache manager, together with
theorems settling the specification's claims against these definitions.

Conventions: Python float constants are rendered as exact rationals;
externally supplied similarity scores (numpy dot products of embeddings)
are abstracted as a function `String → String → ℚ`; asynchronous store and
model calls are replaced by their pure results (success data or an `Option`
marking failure), keeping the control flow of the source intact.
-/

namespace MemorySystem

/-- Python `str.strip()`: drop whitespace from both ends, working on the
string's code points (a Python string is a sequence of code points). -/
def pyStrip (s : String) : String :=
  ⟨((s.data.dropWhile Char.isWhitespace).reverse.dropWhile Char.isWhitespace).reverse⟩

/-- Python `str.lower()`, code point by code point. -/
def pyLower (s : String) : String :=
  ⟨s.data.map Char.toLower⟩

/-! ### Constants (class `Constants` of the source) -/

def MIN_MESSAGE_CHARS : Nat := 10

def MAX_MESSAGE_CHARS : Nat := 2500

def MAX_MEMORIES_PER_RETRIEVAL : Nat := 10

def EXTENDED_MAX_MEMORY_MULTIPLIER : ℚ := 16 / 10

def LLM_RERANKING_TRIGGER_MULTIPLIER : ℚ := 8 / 10

def DEDUPLICATION_SIMILARITY_THRESHOLD : ℚ := 90 / 100

def maxDeleteOperationsRatio : ℚ := 6 / 10

def MIN_OPS_FOR_DELETE_RATIO_CHECK : Nat := 6

/-! ### Data model (class `Models` of the source) -/

inductive MemoryOperationType where
  | CREATE
  | UPDATE
  | DELETE
  deriving DecidableEq

/-- `Models.MemoryOperation`: operation tag, content (empty for DELETE) and
memory id (empty for CREATE). -/
structure MemoryOperation where
  operation : MemoryOperationType
  content : String
  id : String
  deriving DecidableEq

/-- A stored memory record, as far as the consolidation and reranking
services read it: its id (stringified) and its content. -/
structure MemoryRecord where
  id : String
  content : String
  deriving DecidableEq

/-- `Models.MemoryOperation.validate_operation`: CREATE is always valid,
UPDATE and DELETE are valid exactly when the id is among the known ids. -/
def validate_operation (o : MemoryOperation) (existing_memory_ids : List String) : Bool :=
  match o.operation with
  | .CREATE => true
  | .UPDATE => decide (o.id ∈ existing_memory_ids)
  | .DELETE => decide (o.id ∈ existing_memory_ids)

/-! ### Consolidation plan generation
(`LLMConsolidationService.generate_consolidation_plan`) -/

/-- The number of DELETE operations in a plan. -/
def deleteCount (ops : List MemoryOperation) : Nat :=
  (ops.filter (fun o => decide (o.operation = .DELETE))).length

/-- `op.content.strip().lower()`, the normalized content used for in-plan
content deduplication. -/
def normalized_content (o : MemoryOperation) : String :=
  pyLower (pyStrip o.content)

/-- The validation / in-plan deduplication loop of
`generate_consolidation_plan`: drop invalid operations, repeated UPDATEs to
the same id, and CREATE/UPDATE operations repeating an earlier operation's
normalized content. `seenC` and `seenU` accumulate seen contents and seen
UPDATE ids. -/
def dedup_plan : List MemoryOperation → List String → List String → List String →
    List MemoryOperation
  | [], _, _, _ => []
  | o :: rest, existing, seenC, seenU =>
    if validate_operation o existing = true then
      if o.operation = .UPDATE ∧ o.id ∈ seenU then
        dedup_plan rest existing seenC seenU
      else if (o.operation = .CREATE ∨ o.operation = .UPDATE) ∧ normalized_content o ∈ seenC then
        dedup_plan rest existing seenC seenU
      else
        o :: dedup_plan rest existing
          (if o.operation = .CREATE ∨ o.operation = .UPDATE then
            normalized_content o :: seenC else seenC)
          (if o.operation = .UPDATE then o.id :: seenU else seenU)
    else
      dedup_plan rest existing seenC seenU

/-- `generate_consolidation_plan`, from the point where the model's response
`ops` is in hand: the delete-ratio safety check followed by validation and
in-plan deduplication. `candidate_ids` is the id set of the candidate
memories that were formatted into the prompt. -/
def generate_consolidation_plan (ops : List MemoryOperation) (candidate_ids : List String) :
    List MemoryOperation :=
  let total := ops.length
  let delete_ratio : ℚ := if total = 0 then 0 else (deleteCount ops : ℚ) / (total : ℚ)
  if delete_ratio > maxDeleteOperationsRatio ∧ MIN_OPS_FOR_DELETE_RATIO_CHECK ≤ total then
    []
  else
    dedup_plan ops candidate_ids [] []

/-! ### Semantic deduplication against the store
(`_check_semantic_duplicate` and `_deduplicate_operations`) -/

/-- `LLMConsolidationService._check_semantic_duplicate`: the id of the first
existing memory whose content is at least `MIN_MESSAGE_CHARS` long after
stripping and whose similarity with `content` reaches the deduplication
threshold. `sim` abstracts the embedding dot product. -/
def check_semantic_duplicate (sim : String → String → ℚ) (content : String) :
    List MemoryRecord → Option String
  | [] => none
  | m :: rest =>
    if (pyStrip m.content).length < MIN_MESSAGE_CHARS then
      check_semantic_duplicate sim content rest
    else if DEDUPLICATION_SIMILARITY_THRESHOLD ≤ sim content m.content then
      some m.id
    else
      check_semantic_duplicate sim content rest

/-- `LLMConsolidationService._deduplicate_operations`: for each operation,
check its content against the current memories (excluding, for UPDATE, the
memory being updated). On a duplicate, an UPDATE (with a delete list
supplied) is kept and a DELETE of the duplicate is appended to that list; a
CREATE is dropped. Returns the surviving operations and the delete list. -/
def deduplicate_operations (sim : String → String → ℚ) :
    List MemoryOperation → List MemoryRecord → MemoryOperationType →
    Option (List MemoryOperation) → List MemoryOperation × Option (List MemoryOperation)
  | [], _, _, delete_operations => ([], delete_operations)
  | op :: rest, current, operation_type, delete_operations =>
    let memories_to_check :=
      if operation_type = .UPDATE then
        current.filter (fun m => decide (m.id ≠ op.id))
      else current
    match check_semantic_duplicate sim op.content memories_to_check with
    | some duplicate_id =>
      if operation_type = .UPDATE ∧ delete_operations ≠ none then
        let deletes' := delete_operations.getD [] ++ [⟨.DELETE, "", duplicate_id⟩]
        let r := deduplicate_operations sim rest current operation_type (some deletes')
        (op :: r.1, r.2)
      else
        deduplicate_operations sim rest current operation_type delete_operations
    | none =>
      let r := deduplicate_operations sim rest current operation_type delete_operations
      (op :: r.1, r.2)

/-! ### Execution (`execute_memory_operations` and `_execute_single_operation`) -/

/-- The observable outcome of `_execute_single_operation`: which store call
is issued with which (stripped) arguments, or which skip result is
returned without touching the store. Store success is abstracted. -/
inductive ExecResult where
  | did_create (content : String)
  | did_update (id content : String)
  | did_delete (id : String)
  | skipped_empty_content
  | skipped_empty_id
  deriving DecidableEq

/-- `Filter._execute_single_operation`: strip ids and contents, skip empty
ones, and otherwise issue the corresponding store call. -/
def execute_single_operation (o : MemoryOperation) : ExecResult :=
  match o.operation with
  | .CREATE =>
    if pyStrip o.content = "" then .skipped_empty_content
    else .did_create (pyStrip o.content)
  | .UPDATE =>
    if pyStrip o.id = "" then .skipped_empty_id
    else if pyStrip o.content = "" then .skipped_empty_content
    else .did_update (pyStrip o.id) (pyStrip o.content)
  | .DELETE =>
    if pyStrip o.id = "" then .skipped_empty_id
    else .did_delete (pyStrip o.id)

/-- The dispatch order of `execute_memory_operations`: operations are
bucketed by kind (the buckets iterate in insertion order CREATE, UPDATE,
DELETE), CREATE and UPDATE buckets are semantically deduplicated against
the current memories — UPDATE deduplication appending extra DELETEs to the
DELETE bucket — and the buckets are then dispatched in that fixed order.
The result is the list of operations in dispatch order. -/
def execute_memory_operations_trace (sim : String → String → ℚ)
    (operations : List MemoryOperation) (current : List MemoryRecord) :
    List MemoryOperation :=
  let creates := operations.filter (fun o => decide (o.operation = .CREATE))
  let updates := operations.filter (fun o => decide (o.operation = .UPDATE))
  let deletes := operations.filter (fun o => decide (o.operation = .DELETE))
  let dedupedCreates := (deduplicate_operations sim creates current .CREATE none).1
  let r := deduplicate_operations sim updates current .UPDATE (some deletes)
  dedupedCreates ++ r.1 ++ r.2.getD []

/-! ### Helper lemmas on the plan pipeline -/

/-- Every operation surviving plan validation and in-plan deduplication is
one of the model's operations and passes `validate_operation`. -/
theorem dedup_plan_mem {ops : List MemoryOperation} {existing seenC seenU : List String}
    {o : MemoryOperation} (h : o ∈ dedup_plan ops existing seenC seenU) :
    o ∈ ops ∧ validate_operation o existing = true := by
  induction ops generalizing seenC seenU with
  | nil => simp [dedup_plan] at h
  | cons a rest ih =>
    rw [dedup_plan] at h
    split at h
    · rename_i hval
      split at h
      · exact ⟨List.mem_cons_of_mem a (ih h).1, (ih h).2⟩
      · split at h
        · exact ⟨List.mem_cons_of_mem a (ih h).1, (ih h).2⟩
        · rcases List.mem_cons.mp h with rfl | hmem
          · exact ⟨List.mem_cons_self _ _, hval⟩
          · exact ⟨List.mem_cons_of_mem a (ih hmem).1, (ih hmem).2⟩
    · exact ⟨List.mem_cons_of_mem a (ih h).1, (ih h).2⟩

/-- Below the minimum operation count the delete-ratio safety check never
fires: the plan is validation and deduplication alone. -/
theorem generate_consolidation_plan_small {ops : List MemoryOperation}
    (h : ops.length < MIN_OPS_FOR_DELETE_RATIO_CHECK) (candidate_ids : List String) :
    generate_consolidation_plan ops candidate_ids = dedup_plan ops candidate_ids [] [] := by
  unfold generate_consolidation_plan
  rw [if_neg]
  rintro ⟨-, h6⟩
  omega

/-! ### C1 -/

/-- C1: a plan returned by the model with at least
`MIN_OPS_FOR_DELETE_RATIO_CHECK` operations whose DELETE fraction strictly
exceeds `maxDeleteOperationsRatio` is rejected outright:
`generate_consolidation_plan` returns the empty operation list, and
executing an empty plan dispatches no operation against the store. -/
theorem c1_delete_ratio_safety (ops : List MemoryOperation) (candidate_ids : List String)
    (h1 : MIN_OPS_FOR_DELETE_RATIO_CHECK ≤ ops.length)
    (h2 : (deleteCount ops : ℚ) / (ops.length : ℚ) > maxDeleteOperationsRatio) :
    generate_consolidation_plan ops candidate_ids = [] ∧
    ∀ (sim : String → String → ℚ) (current : List MemoryRecord),
      execute_memory_operations_trace sim [] current = [] := by
  refine ⟨?_, fun sim current => rfl⟩
  unfold generate_consolidation_plan
  rw [if_pos]
  have htot : ops.length ≠ 0 := by
    have : (6 : Nat) ≤ ops.length := h1
    omega
  exact ⟨by simpa [htot] using h2, h1⟩

/-- Concrete instance for C1 (scenario C of the spec): ten operations,
seven of them DELETE. -/
def c1_ops : List MemoryOperation :=
  List.replicate 7 ⟨.DELETE, "", "m1"⟩ ++ List.replicate 3 ⟨.CREATE, "I enjoy hiking", ""⟩

theorem c1_delete_ratio_safety_witness :
    MIN_OPS_FOR_DELETE_RATIO_CHECK ≤ c1_ops.length ∧
    (deleteCount c1_ops : ℚ) / (c1_ops.length : ℚ) > maxDeleteOperationsRatio ∧
    generate_consolidation_plan c1_ops ["m1"] = [] := by
  have hd : deleteCount c1_ops = 7 := by decide
  have hl : c1_ops.length = 10 := by decide
  have hq : (deleteCount c1_ops : ℚ) / (c1_ops.length : ℚ) > maxDeleteOperationsRatio := by
    rw [hd, hl]
    norm_num [maxDeleteOperationsRatio]
  exact ⟨by decide, hq, (c1_delete_ratio_safety c1_ops ["m1"] (by decide) hq).1⟩

/-! ### Helper lemmas on semantic deduplication -/

/-- When the duplicate check comes back empty, no sufficiently long memory
reaches the similarity threshold. -/
theorem check_semantic_duplicate_eq_none_iff (sim : String → String → ℚ) (content : String)
    (mems : List MemoryRecord) :
    check_semantic_duplicate sim content mems = none ↔
      ∀ m ∈ mems, MIN_MESSAGE_CHARS ≤ (pyStrip m.content).length →
        sim content m.content < DEDUPLICATION_SIMILARITY_THRESHOLD := by
  induction mems with
  | nil => simp [check_semantic_duplicate]
  | cons m rest ih =>
    rw [check_semantic_duplicate]
    split
    · rename_i hshort
      rw [ih]
      constructor
      · intro h x hx hlen
        rcases List.mem_cons.mp hx with rfl | hx
        · omega
        · exact h x hx hlen
      · intro h x hx hlen
        exact h x (List.mem_cons_of_mem _ hx) hlen
    · split
      · rename_i hshort hsim
        constructor
        · intro h
          cases h
        · intro h
          exact absurd hsim (not_le.mpr (h m (List.mem_cons_self _ _) (by omega)))
      · rename_i hshort hsim
        rw [ih]
        constructor
        · intro h x hx hlen
          rcases List.mem_cons.mp hx with rfl | hx
          · exact lt_of_not_le hsim
          · exact h x hx hlen
        · intro h x hx hlen
          exact h x (List.mem_cons_of_mem _ hx) hlen

/-- A positive duplicate check names a sufficiently long memory at or above
the threshold. -/
theorem check_semantic_duplicate_some_spec {sim : String → String → ℚ} {content : String}
    {mems : List MemoryRecord} {i : String}
    (h : check_semantic_duplicate sim content mems = some i) :
    ∃ m ∈ mems, m.id = i ∧ MIN_MESSAGE_CHARS ≤ (pyStrip m.content).length ∧
      DEDUPLICATION_SIMILARITY_THRESHOLD ≤ sim content m.content := by
  induction mems with
  | nil => simp [check_semantic_duplicate] at h
  | cons m rest ih =>
    rw [check_semantic_duplicate] at h
    split at h
    · obtain ⟨x, hx, hprop⟩ := ih h
      exact ⟨x, List.mem_cons_of_mem _ hx, hprop⟩
    · split at h
      · rename_i hshort hsim
        cases h
        exact ⟨m, List.mem_cons_self _ _, rfl, by omega, hsim⟩
      · obtain ⟨x, hx, hprop⟩ := ih h
        exact ⟨x, List.mem_cons_of_mem _ hx, hprop⟩

/-- Surviving operations of `_deduplicate_operations` are input operations. -/
theorem deduplicate_operations_fst_subset {sim : String → String → ℚ}
    {ops : List MemoryOperation} {current : List MemoryRecord} {ty : MemoryOperationType}
    {dels : Option (List MemoryOperation)} {x : MemoryOperation}
    (h : x ∈ (deduplicate_operations sim ops current ty dels).1) : x ∈ ops := by
  induction ops generalizing dels with
  | nil => simp [deduplicate_operations] at h
  | cons op rest ih =>
    simp only [deduplicate_operations] at h
    split at h
    · split at h
      · rcases List.mem_cons.mp h with rfl | h
        · exact List.mem_cons_self _ _
        · exact List.mem_cons_of_mem _ (ih h)
      · exact List.mem_cons_of_mem _ (ih h)
    · rcases List.mem_cons.mp h with rfl | h
      · exact List.mem_cons_self _ _
      · exact List.mem_cons_of_mem _ (ih h)

/-- In UPDATE mode with a delete list supplied, no operation is dropped:
every UPDATE survives deduplication. -/
theorem deduplicate_operations_update_fst (sim : String → String → ℚ)
    (ops : List MemoryOperation) (current : List MemoryRecord)
    (dels : List MemoryOperation) :
    (deduplicate_operations sim ops current .UPDATE (some dels)).1 = ops := by
  induction ops generalizing dels with
  | nil => rfl
  | cons op rest ih =>
    simp only [deduplicate_operations]
    split
    · rw [if_pos ⟨by trivial, by simp⟩]
      simp [ih]
    · simp [ih]

/-- The delete list threaded through `_deduplicate_operations` only grows,
and everything appended to it is a DELETE of some duplicate's id. -/
theorem deduplicate_operations_snd_spec (sim : String → String → ℚ)
    (ops : List MemoryOperation) (current : List MemoryRecord)
    (ty : MemoryOperationType) (dels : List MemoryOperation) :
    ∃ extra, (deduplicate_operations sim ops current ty (some dels)).2 = some (dels ++ extra) ∧
      ∀ x ∈ extra, ∃ i, x = (⟨.DELETE, "", i⟩ : MemoryOperation) := by
  induction ops generalizing dels with
  | nil => exact ⟨[], by simp [deduplicate_operations], by simp⟩
  | cons op rest ih =>
    simp only [deduplicate_operations]
    split
    · rename_i dup hdup
      by_cases hty : ty = .UPDATE ∧ (some dels : Option (List MemoryOperation)) ≠ none
      · rw [if_pos hty]
        obtain ⟨extra, heq, hprop⟩ := ih (dels ++ [⟨.DELETE, "", dup⟩])
        refine ⟨⟨.DELETE, "", dup⟩ :: extra, ?_, ?_⟩
        · simpa [List.append_assoc] using heq
        · intro x hx
          rcases List.mem_cons.mp hx with rfl | hx
          · exact ⟨dup, rfl⟩
          · exact hprop x hx
      · rw [if_neg hty]
        exact ih dels
    · obtain ⟨extra, heq, hprop⟩ := ih dels
      exact ⟨extra, heq, hprop⟩

/-- Supplied deletes survive into the final delete list. -/
theorem deduplicate_operations_snd_mono {sim : String → String → ℚ}
    {ops : List MemoryOperation} {current : List MemoryRecord} {ty : MemoryOperationType}
    {dels : List MemoryOperation} {x : MemoryOperation} (hx : x ∈ dels) :
    x ∈ (deduplicate_operations sim ops current ty (some dels)).2.getD [] := by
  obtain ⟨extra, heq, -⟩ := deduplicate_operations_snd_spec sim ops current ty dels
  rw [heq]
  simp [hx]

/-- If the supplied deletes are all DELETE operations, so is everything in
the final delete list. -/
theorem deduplicate_operations_snd_delete {sim : String → String → ℚ}
    {ops : List MemoryOperation} {current : List MemoryRecord} {ty : MemoryOperationType}
    {dels : List MemoryOperation} (hdels : ∀ y ∈ dels, y.operation = .DELETE)
    {x : MemoryOperation}
    (hx : x ∈ (deduplicate_operations sim ops current ty (some dels)).2.getD []) :
    x.operation = .DELETE := by
  obtain ⟨extra, heq, hprop⟩ := deduplicate_operations_snd_spec sim ops current ty dels
  rw [heq] at hx
  simp only [Option.getD_some, List.mem_append] at hx
  rcases hx with hx | hx
  · exact hdels x hx
  · obtain ⟨i, rfl⟩ := hprop x hx
    rfl

/-- A CREATE that survives semantic deduplication has no duplicate among
the current memories. -/
theorem deduplicate_operations_create_mem {sim : String → String → ℚ}
    {ops : List MemoryOperation} {current : List MemoryRecord} {x : MemoryOperation}
    (h : x ∈ (deduplicate_operations sim ops current .CREATE none).1) :
    check_semantic_duplicate sim x.content current = none := by
  induction ops with
  | nil => simp [deduplicate_operations] at h
  | cons op rest ih =>
    simp only [deduplicate_operations, reduceCtorEq, if_false] at h
    split at h
    · rename_i heq
      rw [if_neg (by simp)] at h
      exact ih h
    · rename_i heq
      rcases List.mem_cons.mp h with rfl | h
      · exact heq
      · exact ih h

/-- An UPDATE whose duplicate check (against the current memories minus
itself) fires gets a DELETE of the duplicate appended to the delete list. -/
theorem deduplicate_operations_update_delete {sim : String → String → ℚ}
    {ops : List MemoryOperation} {current : List MemoryRecord}
    {op : MemoryOperation} {i : String} (hop : op ∈ ops)
    (hcheck : check_semantic_duplicate sim op.content
        (current.filter (fun m => decide (m.id ≠ op.id))) = some i) :
    ∀ dels, (⟨.DELETE, "", i⟩ : MemoryOperation) ∈
      (deduplicate_operations sim ops current .UPDATE (some dels)).2.getD [] := by
  induction ops with
  | nil => cases hop
  | cons a rest ih =>
    intro dels
    rcases List.mem_cons.mp hop with rfl | hmem
    · simp only [deduplicate_operations, if_true, hcheck, true_and, ne_eq, reduceCtorEq,
        not_false_eq_true, Option.getD_some]
      refine deduplicate_operations_snd_mono ?_
      simp
    · simp only [deduplicate_operations]
      split
      · rw [if_pos ⟨by trivial, by simp⟩]
        exact ih hmem _
      · exact ih hmem _

/-- Everything in the final delete list is either a supplied delete or a
DELETE of some current store memory's id (the semantic duplicate found by
the check). -/
theorem deduplicate_operations_snd_mem (sim : String → String → ℚ)
    (ops : List MemoryOperation) (current : List MemoryRecord)
    (ty : MemoryOperationType) (dels : List MemoryOperation) :
    ∀ x ∈ (deduplicate_operations sim ops current ty (some dels)).2.getD [],
      x ∈ dels ∨ ∃ m ∈ current, x = (⟨.DELETE, "", m.id⟩ : MemoryOperation) := by
  induction ops generalizing dels with
  | nil =>
    intro x hx
    simp only [deduplicate_operations, Option.getD_some] at hx
    exact Or.inl hx
  | cons op rest ih =>
    intro x hx
    simp only [deduplicate_operations] at hx
    split at hx
    · rename_i dup hdup
      by_cases hty : ty = .UPDATE ∧ (some dels : Option (List MemoryOperation)) ≠ none
      · rw [if_pos hty] at hx
        simp only [Option.getD_some] at hx
        rcases ih (dels ++ [⟨.DELETE, "", dup⟩]) x hx with h | h
        · rcases List.mem_append.mp h with h2 | h2
          · exact Or.inl h2
          · simp only [List.mem_singleton] at h2
            obtain ⟨m, hm, hmid, -, -⟩ := check_semantic_duplicate_some_spec hdup
            refine Or.inr ⟨m, ?_, ?_⟩
            · revert hm
              split
              · exact fun hm => List.mem_of_mem_filter hm
              · exact fun hm => hm
            · rw [h2, hmid]
        · exact Or.inr h
      · rw [if_neg hty] at hx
        exact ih dels x hx
    · exact ih dels x hx

/-! ### C2 -/

/-- The CREATE operation with empty content used against C2's clause that
the validated plan admits no CREATE with empty content. -/
def c2_op : MemoryOperation := ⟨.CREATE, "", ""⟩

/-- Similarity function for the C2 counterexample: any two texts are
maximally similar. -/
def c2_sim : String → String → ℚ := fun _ _ => 1

/-- A validly planned UPDATE whose id is the sole candidate id. -/
def c2_update : MemoryOperation := ⟨.UPDATE, "I moved to Barcelona Spain in August 2025", "x1"⟩

/-- A current store memory outside the candidate set whose content
duplicates the UPDATE's new content. -/
def c2_store : MemoryRecord := ⟨"y9", "I moved to Barcelona Spain recently"⟩

/-- C2 is false as stated, in both of its clauses. First, the validated
plan can contain a CREATE with empty content: `validate_operation` accepts
every CREATE regardless of content and in-plan deduplication keeps a first
empty-content CREATE. Second, the consolidation service executes DELETE
operations whose id is not in the candidate set passed to the model: here
the plan for candidate set x1 validates to a single UPDATE, yet execution
dispatches a DELETE of y9 — appended by UPDATE semantic deduplication for a
current store memory — and y9 is not a candidate id, while
`execute_single_operation` issues the store delete for it. -/
theorem c2_counterexample :
    (c2_op.operation = .CREATE ∧ c2_op.content = "" ∧
      generate_consolidation_plan [c2_op] [] = [c2_op]) ∧
    (generate_consolidation_plan [c2_update] ["x1"] = [c2_update] ∧
      (⟨.DELETE, "", "y9"⟩ : MemoryOperation) ∈
        execute_memory_operations_trace c2_sim [c2_update] [c2_store] ∧
      execute_single_operation ⟨.DELETE, "", "y9"⟩ = .did_delete "y9" ∧
      ("y9" : String) ∉ ["x1"]) := by
  refine ⟨⟨rfl, rfl, ?_⟩, ?_, ?_, by decide, by decide⟩
  · rw [generate_consolidation_plan_small (by decide)]
    decide
  · rw [generate_consolidation_plan_small (by decide)]
    decide
  · have hcheck : check_semantic_duplicate c2_sim c2_update.content [c2_store] = some "y9" := by
      rw [check_semantic_duplicate]
      rw [if_neg (by decide),
        if_pos (by norm_num [DEDUPLICATION_SIMILARITY_THRESHOLD, c2_sim])]
      rfl
    have hfil : [c2_store].filter (fun m => decide (m.id ≠ c2_update.id)) = [c2_store] := by
      decide
    have hcheck2 : check_semantic_duplicate c2_sim c2_update.content
        ([c2_store].filter (fun m => decide (m.id ≠ c2_update.id))) = some "y9" := by
      rw [hfil]
      exact hcheck
    have hop : c2_update ∈ [c2_update].filter (fun o => decide (o.operation = .UPDATE)) := by
      decide
    have hdel := deduplicate_operations_update_delete hop hcheck2
      ([c2_update].filter (fun o => decide (o.operation = .DELETE)))
    simp only [execute_memory_operations_trace]
    exact List.mem_append.mpr (Or.inr hdel)

/-- C2 amended: every UPDATE or DELETE in the validated plan references a
candidate id, but what the service executes is the plan's operations plus
the DELETEs appended by UPDATE semantic deduplication, and each appended
DELETE carries the id of some current store memory, which need not be a
candidate id; non-empty content is guarded at execution, not validation:
a store-level create or update is only ever issued with non-empty stripped
content, empty-content operations being skipped at dispatch time. -/
theorem c2_plan_id_and_exec_content (ops : List MemoryOperation) (candidate_ids : List String) :
    (∀ o ∈ generate_consolidation_plan ops candidate_ids,
        o.operation = .UPDATE ∨ o.operation = .DELETE → o.id ∈ candidate_ids) ∧
    (∀ o c, execute_single_operation o = .did_create c → c ≠ "") ∧
    (∀ o i c, execute_single_operation o = .did_update i c → c ≠ "") ∧
    (∀ (sim : String → String → ℚ) (plan : List MemoryOperation)
      (current : List MemoryRecord) (x : MemoryOperation),
      x ∈ execute_memory_operations_trace sim plan current →
      x ∈ plan ∨ ∃ m ∈ current, x = (⟨.DELETE, "", m.id⟩ : MemoryOperation)) := by
  refine ⟨?_, ?_, ?_, ?_⟩
  · intro o ho hop
    simp only [generate_consolidation_plan] at ho
    have hmem : o ∈ dedup_plan ops candidate_ids [] [] := by
      split at ho <;>
        · split at ho
          · simp at ho
          · exact ho
    have hval := (dedup_plan_mem hmem).2
    rcases hop with h | h <;>
      · unfold validate_operation at hval
        rw [h] at hval
        simpa using hval
  · intro o c h
    unfold execute_single_operation at h
    split at h
    · split at h
      · cases h
      · cases h
        rename_i hne
        simpa using hne
    · split at h <;> [cases h; skip]
      split at h <;> cases h
    · split at h <;> cases h
  · intro o i c h
    unfold execute_single_operation at h
    split at h
    · split at h <;> cases h
    · split at h
      · cases h
      · split at h
        · cases h
        · cases h
          rename_i hne
          simpa using hne
    · split at h <;> cases h
  · intro sim plan current x hx
    simp only [execute_memory_operations_trace] at hx
    rcases List.mem_append.mp hx with hx | hx
    · rcases List.mem_append.mp hx with hx | hx
      · exact Or.inl ((List.filter_sublist _).subset (deduplicate_operations_fst_subset hx))
      · exact Or.inl ((List.filter_sublist _).subset (deduplicate_operations_fst_subset hx))
    · rcases deduplicate_operations_snd_mem sim _ current .UPDATE _ x hx with h | h
      · exact Or.inl ((List.filter_sublist _).subset h)
      · exact Or.inr h

/-- A valid UPDATE used for the amended C2's concrete instance. -/
def c2_valid_update : MemoryOperation := ⟨.UPDATE, "I moved to Barcelona in 2025", "m1"⟩

/-- Concrete instance for the amended C2: a valid UPDATE's id is a
candidate id, and with no current memories the executed trace is exactly
the plan. -/
theorem c2_plan_id_and_exec_content_witness :
    (c2_valid_update ∈ generate_consolidation_plan [c2_valid_update] ["m1"] ∧
      ("m1" : String) ∈ ["m1"]) ∧
    (c2_valid_update ∈
        execute_memory_operations_trace (fun _ _ => (0 : ℚ)) [c2_valid_update] [] ∧
      (c2_valid_update ∈ [c2_valid_update] ∨
        ∃ m ∈ ([] : List MemoryRecord),
          c2_valid_update = (⟨.DELETE, "", m.id⟩ : MemoryOperation))) := by
  have hmem : c2_valid_update ∈ generate_consolidation_plan [c2_valid_update] ["m1"] := by
    rw [generate_consolidation_plan_small (by decide)]
    decide
  have htr : c2_valid_update ∈
      execute_memory_operations_trace (fun _ _ => (0 : ℚ)) [c2_valid_update] [] := by
    decide
  exact ⟨⟨hmem, (c2_plan_id_and_exec_content [c2_valid_update] ["m1"]).1 _ hmem (Or.inl rfl)⟩,
    htr, (c2_plan_id_and_exec_content [c2_valid_update] ["m1"]).2.2.2
      (fun _ _ => (0 : ℚ)) [c2_valid_update] [] c2_valid_update htr⟩

/-! ### C6 -/

/-- Similarity function used for the C6 counterexample: every pair of texts
is maximally similar. -/
def c6_sim : String → String → ℚ := fun _ _ => 1

/-- Existing memory whose stripped content is shorter than
`MIN_MESSAGE_CHARS`. -/
def c6_mem : MemoryRecord := ⟨"y1", "short"⟩

def c6_op : MemoryOperation := ⟨.CREATE, "I love hiking in the mountains", ""⟩

/-- C6 is false as stated: a surviving CREATE whose content is at or above
the dedup threshold similar to an existing memory is nonetheless kept when
that memory's stripped content is shorter than `MIN_MESSAGE_CHARS`, because
`_check_semantic_duplicate` skips short memories before comparing. -/
theorem c6_counterexample :
    DEDUPLICATION_SIMILARITY_THRESHOLD ≤ c6_sim c6_op.content c6_mem.content ∧
    c6_mem ∈ [c6_mem] ∧
    (deduplicate_operations c6_sim [c6_op] [c6_mem] .CREATE none).1 = [c6_op] := by
  refine ⟨?_, List.mem_singleton_self _, ?_⟩
  · norm_num [DEDUPLICATION_SIMILARITY_THRESHOLD, c6_sim]
  · decide

/-- C6 amended: semantic deduplication only consults existing memories
whose stripped content has at least `MIN_MESSAGE_CHARS` characters. Against
such memories it behaves as claimed: an UPDATE with a qualifying duplicate
(other than the memory being updated) is kept and a DELETE of the first
qualifying duplicate is appended; a CREATE with a qualifying duplicate is
dropped. -/
theorem c6_semantic_dedup (sim : String → String → ℚ) (ops : List MemoryOperation)
    (current : List MemoryRecord) (dels : List MemoryOperation) :
    (∀ op ∈ ops, ∀ m ∈ current, m.id ≠ op.id →
        MIN_MESSAGE_CHARS ≤ (pyStrip m.content).length →
        DEDUPLICATION_SIMILARITY_THRESHOLD ≤ sim op.content m.content →
        op ∈ (deduplicate_operations sim ops current .UPDATE (some dels)).1 ∧
        ∃ y ∈ current, y.id ≠ op.id ∧ MIN_MESSAGE_CHARS ≤ (pyStrip y.content).length ∧
          DEDUPLICATION_SIMILARITY_THRESHOLD ≤ sim op.content y.content ∧
          (⟨.DELETE, "", y.id⟩ : MemoryOperation) ∈
            (deduplicate_operations sim ops current .UPDATE (some dels)).2.getD []) ∧
    (∀ op ∈ ops, ∀ m ∈ current,
        MIN_MESSAGE_CHARS ≤ (pyStrip m.content).length →
        DEDUPLICATION_SIMILARITY_THRESHOLD ≤ sim op.content m.content →
        op ∉ (deduplicate_operations sim ops current .CREATE none).1) := by
  constructor
  · intro op hop m hm hne hlen hsim
    have hkeep : op ∈ (deduplicate_operations sim ops current .UPDATE (some dels)).1 := by
      rw [deduplicate_operations_update_fst]
      exact hop
    refine ⟨hkeep, ?_⟩
    have hcand : m ∈ current.filter (fun x => decide (x.id ≠ op.id)) :=
      List.mem_filter.mpr ⟨hm, by simpa using hne⟩
    have hnn : check_semantic_duplicate sim op.content
        (current.filter (fun x => decide (x.id ≠ op.id))) ≠ none := by
      rw [Ne, check_semantic_duplicate_eq_none_iff]
      intro hall
      exact absurd hsim (not_le.mpr (hall m hcand hlen))
    obtain ⟨i, hi⟩ := Option.ne_none_iff_exists'.mp hnn
    obtain ⟨y, hy, hyid, hylen, hysim⟩ := check_semantic_duplicate_some_spec hi
    obtain ⟨hy_mem, hy_ne⟩ := List.mem_filter.mp hy
    refine ⟨y, hy_mem, by simpa using hy_ne, hylen, hysim, ?_⟩
    rw [hyid]
    exact deduplicate_operations_update_delete hop hi dels
  · intro op hop m hm hlen hsim hmem
    have hnone := deduplicate_operations_create_mem hmem
    rw [check_semantic_duplicate_eq_none_iff] at hnone
    exact absurd hsim (not_le.mpr (hnone m hm hlen))

/-- Concrete instance for the amended C6: an UPDATE whose new content
duplicates another stored memory keeps the UPDATE and schedules that
memory's deletion. -/
theorem c6_semantic_dedup_witness :
    ((⟨"y1", "I love hiking in the mountains"⟩ : MemoryRecord).id ≠
        (⟨.UPDATE, "I really love hiking in the mountains", "x1"⟩ : MemoryOperation).id ∧
      MIN_MESSAGE_CHARS ≤ (pyStrip (⟨"y1", "I love hiking in the mountains"⟩ : MemoryRecord).content).length ∧
      DEDUPLICATION_SIMILARITY_THRESHOLD ≤ (1 : ℚ)) ∧
    (⟨.UPDATE, "I really love hiking in the mountains", "x1"⟩ : MemoryOperation) ∈
      (deduplicate_operations c6_sim [⟨.UPDATE, "I really love hiking in the mountains", "x1"⟩]
        [⟨"y1", "I love hiking in the mountains"⟩] .UPDATE (some [])).1 ∧
    ∃ y ∈ [(⟨"y1", "I love hiking in the mountains"⟩ : MemoryRecord)],
      y.id ≠ (⟨.UPDATE, "I really love hiking in the mountains", "x1"⟩ : MemoryOperation).id ∧
      MIN_MESSAGE_CHARS ≤ (pyStrip y.content).length ∧
      DEDUPLICATION_SIMILARITY_THRESHOLD ≤
        c6_sim (⟨.UPDATE, "I really love hiking in the mountains", "x1"⟩ : MemoryOperation).content y.content ∧
      (⟨.DELETE, "", y.id⟩ : MemoryOperation) ∈
        (deduplicate_operations c6_sim [⟨.UPDATE, "I really love hiking in the mountains", "x1"⟩]
          [⟨"y1", "I love hiking in the mountains"⟩] .UPDATE (some [])).2.getD [] := by
  have hthr : DEDUPLICATION_SIMILARITY_THRESHOLD ≤ (1 : ℚ) := by
    norm_num [DEDUPLICATION_SIMILARITY_THRESHOLD]
  have h := (c6_semantic_dedup c6_sim [⟨.UPDATE, "I really love hiking in the mountains", "x1"⟩]
      [⟨"y1", "I love hiking in the mountains"⟩] []).1
      _ (List.mem_singleton_self _) _ (List.mem_singleton_self _)
      (by decide) (by decide) hthr
  exact ⟨⟨by decide, by decide, hthr⟩, h.1, h.2⟩

/-! ### C10 -/

/-- C10: the dispatch trace of `execute_memory_operations` is grouped by
kind in the fixed order CREATE, UPDATE, DELETE — every DELETE, including
those appended by UPDATE semantic deduplication, is dispatched only after
all CREATE and UPDATE operations of the same invocation. -/
theorem c10_execution_order (sim : String → String → ℚ) (operations : List MemoryOperation)
    (current : List MemoryRecord) :
    execute_memory_operations_trace sim operations current =
      (execute_memory_operations_trace sim operations current).filter
        (fun o => decide (o.operation = .CREATE)) ++
      (execute_memory_operations_trace sim operations current).filter
        (fun o => decide (o.operation = .UPDATE)) ++
      (execute_memory_operations_trace sim operations current).filter
        (fun o => decide (o.operation = .DELETE)) := by
  have hC : ∀ x ∈ (deduplicate_operations sim
      (operations.filter (fun o => decide (o.operation = .CREATE))) current .CREATE none).1,
      x.operation = .CREATE := fun x hx => by
    simpa using List.of_mem_filter (deduplicate_operations_fst_subset hx)
  have hU : ∀ x ∈ (deduplicate_operations sim
      (operations.filter (fun o => decide (o.operation = .UPDATE))) current .UPDATE
      (some (operations.filter (fun o => decide (o.operation = .DELETE))))).1,
      x.operation = .UPDATE := fun x hx => by
    simpa using List.of_mem_filter (deduplicate_operations_fst_subset hx)
  have hD : ∀ x ∈ (deduplicate_operations sim
      (operations.filter (fun o => decide (o.operation = .UPDATE))) current .UPDATE
      (some (operations.filter (fun o => decide (o.operation = .DELETE))))).2.getD [],
      x.operation = .DELETE := fun x hx =>
    deduplicate_operations_snd_delete
      (fun y hy => by simpa using List.of_mem_filter hy) hx
  have key : ∀ A B C : List MemoryOperation,
      (∀ x ∈ A, x.operation = .CREATE) → (∀ x ∈ B, x.operation = .UPDATE) →
      (∀ x ∈ C, x.operation = .DELETE) →
      A ++ B ++ C =
        (A ++ B ++ C).filter (fun o => decide (o.operation = .CREATE)) ++
        (A ++ B ++ C).filter (fun o => decide (o.operation = .UPDATE)) ++
        (A ++ B ++ C).filter (fun o => decide (o.operation = .DELETE)) := by
    intro A B C hA hB hC2
    rw [List.filter_append, List.filter_append, List.filter_append, List.filter_append,
      List.filter_append, List.filter_append,
      List.filter_eq_self.mpr (fun a ha => by simp [hA a ha]),
      List.filter_eq_nil_iff.mpr (fun a ha => by simp [hB a ha]),
      List.filter_eq_nil_iff.mpr (fun a ha => by simp [hC2 a ha]),
      List.filter_eq_nil_iff.mpr (fun a ha => by simp [hA a ha]),
      List.filter_eq_self.mpr (fun a ha => by simp [hB a ha]),
      List.filter_eq_nil_iff.mpr (fun a ha => by simp [hC2 a ha]),
      List.filter_eq_nil_iff.mpr (fun a ha => by simp [hA a ha]),
      List.filter_eq_nil_iff.mpr (fun a ha => by simp [hB a ha]),
      List.filter_eq_self.mpr (fun a ha => by simp [hC2 a ha])]
    simp
  exact key _ _ _ hC hU hD

/-! ### Reranking service (`LLMRerankingService`) -/

/-- Python `int(...)` applied to the nonnegative products used for the
reranking thresholds: truncation, i.e. the floor clamped to `Nat`. -/
def floorNat (q : ℚ) : Nat := Int.toNat ⌊q⌋

/-- `_should_use_llm_reranking`: reranking triggers when the valve is
enabled and the candidate count strictly exceeds
`int(max_memories_returned * llm_reranking_trigger_multiplier)`. -/
def should_use_llm_reranking (enable_llm_reranking : Bool) (max_memories_returned : Nat)
    (llm_reranking_trigger_multiplier : ℚ) (candidate_count : Nat) : Bool :=
  enable_llm_reranking &&
    decide (floorNat ((max_memories_returned : ℚ) * llm_reranking_trigger_multiplier) <
      candidate_count)

/-- The selection loop of `_llm_select_memories` on a successful model
response: walk the candidates in their given order, keeping those whose id
is among the returned ids, as long as fewer than `max_count` have been
selected. -/
def llm_select_memories : List MemoryRecord → List String → Nat → List MemoryRecord
  | [], _, _ => []
  | m :: rest, ids, max_count =>
    if m.id ∈ ids then
      match max_count with
      | 0 => llm_select_memories rest ids 0
      | b + 1 => m :: llm_select_memories rest ids b
    else
      llm_select_memories rest ids max_count

/-- `rerank_memories`: if reranking does not trigger, truncate the sorted
candidates to `max_memories_returned`. Otherwise take the top
`int(max_memories_returned * EXTENDED_MAX_MEMORY_MULTIPLIER)` candidates
and ask the model; on success run the selection loop, on failure
(`llm_response = none`, the except branch of `_llm_select_memories`) return
those extended candidates as they are. -/
def rerank_memories (enable_llm_reranking : Bool) (max_memories_returned : Nat)
    (llm_reranking_trigger_multiplier : ℚ) (candidate_memories : List MemoryRecord)
    (llm_response : Option (List String)) : List MemoryRecord :=
  if should_use_llm_reranking enable_llm_reranking max_memories_returned
      llm_reranking_trigger_multiplier candidate_memories.length then
    let extended_count := floorNat ((max_memories_returned : ℚ) * EXTENDED_MAX_MEMORY_MULTIPLIER)
    let llm_candidates := candidate_memories.take extended_count
    match llm_response with
    | some ids => llm_select_memories llm_candidates ids max_memories_returned
    | none => llm_candidates
  else
    candidate_memories.take max_memories_returned

/-! ### C4 -/

/-- Eleven candidate memories, enough to trigger reranking under the
default configuration (threshold 8) and to overflow the final bound 10. -/
def c4_candidates : List MemoryRecord :=
  [⟨"m01", "a"⟩, ⟨"m02", "b"⟩, ⟨"m03", "c"⟩, ⟨"m04", "d"⟩, ⟨"m05", "e"⟩, ⟨"m06", "f"⟩,
   ⟨"m07", "g"⟩, ⟨"m08", "h"⟩, ⟨"m09", "i"⟩, ⟨"m10", "j"⟩, ⟨"m11", "k"⟩]

/-- C4 fails on the code: with eleven candidates under the default
configuration, a failed model call makes `rerank_memories` return all
eleven extended candidates — not the un-reranked truncation to
`MAX_MEMORIES_PER_RETRIEVAL` (ten) that the spec and the valve's own
"maximum number of memories to return" documentation promise. -/
theorem c4_rerank_failure_overflow :
    rerank_memories true MAX_MEMORIES_PER_RETRIEVAL LLM_RERANKING_TRIGGER_MULTIPLIER
        c4_candidates none = c4_candidates ∧
    c4_candidates.length = 11 ∧
    (c4_candidates.take MAX_MEMORIES_PER_RETRIEVAL).length = 10 ∧
    rerank_memories true MAX_MEMORIES_PER_RETRIEVAL LLM_RERANKING_TRIGGER_MULTIPLIER
        c4_candidates none ≠ c4_candidates.take MAX_MEMORIES_PER_RETRIEVAL := by
  have htrig : floorNat ((MAX_MEMORIES_PER_RETRIEVAL : ℚ) * LLM_RERANKING_TRIGGER_MULTIPLIER) = 8 := by
    have h8 : ⌊(MAX_MEMORIES_PER_RETRIEVAL : ℚ) * LLM_RERANKING_TRIGGER_MULTIPLIER⌋ = 8 := by
      norm_num [MAX_MEMORIES_PER_RETRIEVAL, LLM_RERANKING_TRIGGER_MULTIPLIER]
    simp [floorNat, h8]
  have hext : floorNat ((MAX_MEMORIES_PER_RETRIEVAL : ℚ) * EXTENDED_MAX_MEMORY_MULTIPLIER) = 16 := by
    have h16 : ⌊(MAX_MEMORIES_PER_RETRIEVAL : ℚ) * EXTENDED_MAX_MEMORY_MULTIPLIER⌋ = 16 := by
      norm_num [MAX_MEMORIES_PER_RETRIEVAL, EXTENDED_MAX_MEMORY_MULTIPLIER]
    simp [floorNat, h16]
  have hcond : should_use_llm_reranking true MAX_MEMORIES_PER_RETRIEVAL
      LLM_RERANKING_TRIGGER_MULTIPLIER c4_candidates.length = true := by
    simp only [should_use_llm_reranking, htrig, Bool.true_and, decide_eq_true_eq]
    decide
  have hfull : rerank_memories true MAX_MEMORIES_PER_RETRIEVAL LLM_RERANKING_TRIGGER_MULTIPLIER
      c4_candidates none = c4_candidates := by
    simp only [rerank_memories, hcond, if_true, hext]
    decide
  refine ⟨hfull, by decide, by decide, ?_⟩
  rw [hfull]
  decide

/-! ### C5 -/

def c5_first : MemoryRecord := ⟨"a", "I live in Madrid Spain"⟩

def c5_second : MemoryRecord := ⟨"b", "I have a golden retriever"⟩

/-- C5 is false as stated: the model returns the ordered id list
["b", "a"], but the selection loop walks the candidates in their original
similarity order, so the result is [first, second] and not the model's
order [second, first]. -/
theorem c5_counterexample :
    llm_select_memories [c5_first, c5_second] ["b", "a"] MAX_MEMORIES_PER_RETRIEVAL =
      [c5_first, c5_second] ∧
    [c5_first, c5_second] ≠ [c5_second, c5_first] := by
  decide

/-- C5 amended: on a successful model response the service re-materializes
the subset of candidates whose ids the model returned, preserving the
original candidate (similarity) order — not the model's order — truncated
to the `max_count` bound. -/
theorem c5_selection_order (candidate_memories : List MemoryRecord) (ids : List String)
    (max_count : Nat) :
    llm_select_memories candidate_memories ids max_count =
      (candidate_memories.filter (fun m => decide (m.id ∈ ids))).take max_count := by
  induction candidate_memories generalizing max_count with
  | nil => simp [llm_select_memories]
  | cons m rest ih =>
    simp only [llm_select_memories]
    split
    · rename_i hmem
      cases max_count with
      | zero => simp [List.filter_cons, hmem, ih]
      | succ b => simp [List.filter_cons, hmem, ih]
    · rename_i hmem
      simp [List.filter_cons, hmem, ih]

/-! ### Skip detector (`SkipDetector`) -/

inductive SkipReason where
  | SKIP_SIZE
  | SKIP_NON_PERSONAL
  deriving DecidableEq

/-- `SkipDetector.validate_message_size`: skip when the message strips to
nothing or its stripped length falls outside
`[MIN_MESSAGE_CHARS, max_message_chars]`. -/
def validate_message_size (message : String) (max_message_chars : Nat) : Option SkipReason :=
  if pyStrip message = "" then some .SKIP_SIZE
  else if (pyStrip message).length < MIN_MESSAGE_CHARS ∨
      max_message_chars < (pyStrip message).length then some .SKIP_SIZE
  else none

/-- Outcome of `detect_skip_reason`, together with whether the embedding
function was invoked along the way. -/
structure SkipDetectionResult where
  verdict : Option SkipReason
  embedding_invoked : Bool
  deriving DecidableEq

/-- `SkipDetector.detect_skip_reason`. The structural fast-path battery
(`_fast_path_skip_detection`, pure string analysis) is abstracted as the
predicate `fast_path`, and the stage-3 embedding comparison (maximum
non-personal similarity exceeding maximum personal similarity by more than
the margin) as `semantic_skip`; both appear exactly at their place in the
control flow, and the embedding function is invoked only when stage 3 is
reached with reference embeddings available. -/
def detect_skip_reason (fast_path : String → Bool) (semantic_skip : String → Bool)
    (reference_embeddings_ready : Bool) (message : String) (max_message_chars : Nat) :
    SkipDetectionResult :=
  match validate_message_size message max_message_chars with
  | some r => ⟨some r, false⟩
  | none =>
    if fast_path message then ⟨some .SKIP_NON_PERSONAL, false⟩
    else if !reference_embeddings_ready then ⟨none, false⟩
    else if semantic_skip message then ⟨some .SKIP_NON_PERSONAL, true⟩
    else ⟨none, true⟩

/-! ### C7 -/

/-- C7: a message that strips to nothing or whose stripped length falls
outside the configured bounds yields the size-skip verdict with no
embedding call, whatever its content and whatever the later stages would
say; and any message matched by the structural fast path yields a skip
verdict with no embedding call. -/
theorem c7_skip_before_embedding (fast_path semantic_skip : String → Bool)
    (reference_embeddings_ready : Bool) (message : String) (max_message_chars : Nat) :
    ((pyStrip message = "" ∨ (pyStrip message).length < MIN_MESSAGE_CHARS ∨
        max_message_chars < (pyStrip message).length) →
      detect_skip_reason fast_path semantic_skip reference_embeddings_ready message
          max_message_chars = ⟨some .SKIP_SIZE, false⟩) ∧
    (fast_path message = true →
      (detect_skip_reason fast_path semantic_skip reference_embeddings_ready message
          max_message_chars).verdict.isSome = true ∧
      (detect_skip_reason fast_path semantic_skip reference_embeddings_ready message
          max_message_chars).embedding_invoked = false) := by
  constructor
  · intro hsize
    unfold detect_skip_reason validate_message_size
    rcases hsize with h | h
    · rw [if_pos h]
    · by_cases h0 : pyStrip message = ""
      · rw [if_pos h0]
      · rw [if_neg h0, if_pos h]
  · intro hfast
    unfold detect_skip_reason
    cases hv : validate_message_size message max_message_chars with
    | some r => simp
    | none => simp [hfast]

/-- Concrete instance for C7 (scenario A of the spec): the empty message is
size-skipped with no embedding call. -/
theorem c7_skip_before_embedding_witness :
    (pyStrip "" = "" ∨ (pyStrip "").length < MIN_MESSAGE_CHARS ∨
      MAX_MESSAGE_CHARS < (pyStrip "").length) ∧
    detect_skip_reason (fun _ => false) (fun _ => true) true "" MAX_MESSAGE_CHARS =
      ⟨some .SKIP_SIZE, false⟩ :=
  ⟨Or.inl (by decide),
    (c7_skip_before_embedding (fun _ => false) (fun _ => true) true "" MAX_MESSAGE_CHARS).1
      (Or.inl (by decide))⟩

/-! ### Embedding normalization (`Filter._normalize_embedding`) -/

/-- The squared Euclidean norm of a vector, `Σ xᵢ²`. -/
def norm_sq (v : List ℚ) : ℚ := (v.map (fun x => x * x)).sum

/-- `Filter._normalize_embedding` after the squeeze and dimension checks
(the claim's precondition), in exact arithmetic. `norm` stands for
`np.linalg.norm(embedding)`, characterized in the theorem by `norm ≥ 0`
and `norm * norm = norm_sq v`; the source divides by it only when it is
strictly positive and otherwise returns the vector unchanged. -/
def normalize_embedding (v : List ℚ) (norm : ℚ) : List ℚ :=
  if 0 < norm then v.map (fun x => x / norm) else v

theorem norm_sq_map_div (v : List ℚ) (n : ℚ) (hn : n ≠ 0) :
    norm_sq (v.map (fun x => x / n)) = norm_sq v / (n * n) := by
  induction v with
  | nil => simp [norm_sq]
  | cons x rest ih =>
    simp only [norm_sq, List.map_cons, List.sum_cons] at ih ⊢
    rw [ih]
    field_simp

/-! ### C9 -/

/-- C9: on every input that reaches the norm computation (a 1D vector of
the detected dimension), `_normalize_embedding` never divides by zero: for
a positive norm it returns the vector scaled by the reciprocal norm, whose
squared norm is one, and for a zero norm it returns the vector unchanged. -/
theorem c9_normalize_embedding_safe (v : List ℚ) (norm : ℚ)
    (_hnonneg : 0 ≤ norm) (hsq : norm * norm = norm_sq v) :
    (0 < norm →
      normalize_embedding v norm = v.map (fun x => x / norm) ∧
      norm_sq (normalize_embedding v norm) = 1) ∧
    (norm = 0 → normalize_embedding v norm = v) := by
  constructor
  · intro hpos
    have hne : norm ≠ 0 := ne_of_gt hpos
    have heq : normalize_embedding v norm = v.map (fun x => x / norm) := by
      unfold normalize_embedding
      rw [if_pos hpos]
    refine ⟨heq, ?_⟩
    rw [heq, norm_sq_map_div v norm hne, ← hsq]
    have hnn : norm * norm ≠ 0 := mul_ne_zero hne hne
    field_simp
  · intro hzero
    unfold normalize_embedding
    rw [if_neg (by rw [hzero]; exact lt_irrefl 0)]

/-- Concrete instance for C9: the vector (3, 4) with norm 5 normalizes to
squared norm one. -/
theorem c9_normalize_embedding_safe_witness :
    (0 : ℚ) ≤ 5 ∧ (5 : ℚ) * 5 = norm_sq [(3 : ℚ), 4] ∧
    (0 < (5 : ℚ) → normalize_embedding [(3 : ℚ), 4] 5 = [(3 : ℚ), 4].map (fun x => x / 5) ∧
      norm_sq (normalize_embedding [(3 : ℚ), 4] 5) = 1) := by
  have h1 : (0 : ℚ) ≤ 5 := by norm_num
  have h2 : (5 : ℚ) * 5 = norm_sq [(3 : ℚ), 4] := by norm_num [norm_sq]
  exact ⟨h1, h2, (c9_normalize_embedding_safe [(3 : ℚ), 4] 5 h1 h2).1⟩

/-! ### Unified cache manager (`UnifiedCacheManager`)

The source keeps `caches : OrderedDict[str, Dict[str, OrderedDict[str, Any]]]`,
ordered from least to most recently used at the outer (user) level and at
the inner (key) level. The model mirrors that as lists ordered the same
way. Each entry and each user additionally carries a ghost `stamp`, and the
state a ghost `clock`, recording touch times so that "least recently
touched" can be stated; the source has no such fields and the operations
never read them. Values are drawn from `Nat`. -/

structure KEntry where
  key : String
  value : Nat
  stamp : Nat
  deriving DecidableEq

structure UEntry where
  user : String
  kinds : List (String × List KEntry)
  stamp : Nat
  deriving DecidableEq

structure CMState where
  users : List UEntry
  clock : Nat
  deriving DecidableEq

/-- Replace the entry list of kind `t` inside a user's kind dict
(`user_cache[cache_type] = ...` on an existing kind). -/
def setKind (t : String) (l : List KEntry) (kinds : List (String × List KEntry)) :
    List (String × List KEntry) :=
  kinds.map (fun q => if q.1 == t then (t, l) else q)

/-- `UnifiedCacheManager.get`: a miss at any level returns `none` and
leaves the state untouched; a hit moves the entry to the most recent end
of its kind, moves the user to the most recent end of the user order, and
returns the value. -/
def cmGet (s : CMState) (user_id cache_type key : String) : Option Nat × CMState :=
  match s.users.find? (fun ue => ue.user == user_id) with
  | none => (none, s)
  | some ue =>
    match ue.kinds.find? (fun p => p.1 == cache_type) with
    | none => (none, s)
    | some p =>
      match p.2.find? (fun e => e.key == key) with
      | none => (none, s)
      | some e =>
        let entries' := p.2.filter (fun x => x.key != key) ++ [⟨key, e.value, s.clock⟩]
        (some e.value,
          ⟨s.users.filter (fun x => x.user != user_id) ++
              [⟨user_id, setKind cache_type entries' ue.kinds, s.clock⟩],
            s.clock + 1⟩)

/-- The eviction step of `put` inside one kind: with a new key and the kind
at capacity, drop the least recently used entry (`popitem(last=False)`). -/
def putEntriesBase (key : String) (maxT : Nat) (l : List KEntry) : List KEntry :=
  if l.any (fun e => e.key == key) then l
  else if maxT ≤ l.length then l.tail else l

/-- The per-kind write of `put`: evict if needed, then insert or overwrite
the key at the most recent end. -/
def putEntries (key : String) (value clock maxT : Nat) (l : List KEntry) : List KEntry :=
  (putEntriesBase key maxT l).filter (fun e => e.key != key) ++ [⟨key, value, clock⟩]

/-- The kind-dict part of `put`: write into the existing kind, or create
the kind (`user_cache[cache_type] = OrderedDict()`) and write into it. -/
def putKinds (cache_type key : String) (value clock maxT : Nat)
    (kinds : List (String × List KEntry)) : List (String × List KEntry) :=
  match kinds.find? (fun p => p.1 == cache_type) with
  | some p => setKind cache_type (putEntries key value clock maxT p.2) kinds
  | none => kinds ++ [(cache_type, putEntries key value clock maxT [])]

/-- `UnifiedCacheManager.put`: inserting a new user into a full manager
first evicts the least recently used user (`popitem(last=False)`); the key
is then written into the user's kind and the user is marked most recently
used (`move_to_end`). -/
def cmPut (maxU maxT : Nat) (s : CMState) (user_id cache_type key : String) (value : Nat) :
    CMState :=
  match s.users.find? (fun ue => ue.user == user_id) with
  | some ue =>
    ⟨s.users.filter (fun x => x.user != user_id) ++
        [⟨user_id, putKinds cache_type key value s.clock maxT ue.kinds, s.clock⟩],
      s.clock + 1⟩
  | none =>
    let base := if maxU ≤ s.users.length then s.users.tail else s.users
    ⟨base ++ [⟨user_id, putKinds cache_type key value s.clock maxT [], s.clock⟩],
      s.clock + 1⟩

/-- A call against the cache manager. -/
inductive CacheOp where
  | get (user_id cache_type key : String)
  | put (user_id cache_type key : String) (value : Nat)
  deriving DecidableEq

def cmStep (maxU maxT : Nat) (s : CMState) : CacheOp → CMState
  | .get u t k => (cmGet s u t k).2
  | .put u t k v => cmPut maxU maxT s u t k v

/-- Run a sequence of calls against the initially empty manager. -/
def cmRun (maxU maxT : Nat) (ops : List CacheOp) : CMState :=
  ops.foldl (cmStep maxU maxT) ⟨[], 0⟩

/-- The user entry `put user_id ...` would evict: the least recently used
user, evicted exactly when the user is new and the manager is full. -/
def put_evicted_user (maxU : Nat) (s : CMState) (user_id : String) : Option UEntry :=
  match s.users.find? (fun ue => ue.user == user_id) with
  | some _ => none
  | none => if maxU ≤ s.users.length then s.users.head? else none

/-- The key entry `put user_id cache_type key ...` would evict: the least
recently used entry of that kind, evicted exactly when the key is new and
the kind is full. -/
def put_evicted_key (maxT : Nat) (s : CMState) (user_id cache_type key : String) :
    Option KEntry :=
  match s.users.find? (fun ue => ue.user == user_id) with
  | none => none
  | some ue =>
    match ue.kinds.find? (fun p => p.1 == cache_type) with
    | none => none
    | some p =>
      if p.2.any (fun e => e.key == key) then none
      else if maxT ≤ p.2.length then p.2.head? else none

/-! ### Cache manager invariant -/

/-- Invariant of every reachable cache state: sizes bounded by the
configured capacities, no duplicate user or kind names, and ghost touch
stamps strictly increasing from least to most recently used and bounded by
the clock. -/
structure CMInv (maxU maxT : Nat) (s : CMState) : Prop where
  ulen : s.users.length ≤ maxU
  klen : ∀ ue ∈ s.users, ∀ p ∈ ue.kinds, p.2.length ≤ maxT
  unames : (s.users.map (fun ue => ue.user)).Nodup
  knames : ∀ ue ∈ s.users, (ue.kinds.map Prod.fst).Nodup
  usorted : (s.users.map (fun ue => ue.stamp)).Pairwise (· < ·)
  ubound : ∀ ue ∈ s.users, ue.stamp < s.clock
  esorted : ∀ ue ∈ s.users, ∀ p ∈ ue.kinds, (p.2.map (fun e => e.stamp)).Pairwise (· < ·)
  ebound : ∀ ue ∈ s.users, ∀ p ∈ ue.kinds, ∀ e ∈ p.2, e.stamp < s.clock

/-- Filtering out a present element shortens the list. -/
theorem length_filter_lt_of_mem {α : Type} {p : α → Bool} {l : List α} {a : α}
    (ha : a ∈ l) (hpa : p a = false) : (l.filter p).length < l.length := by
  induction l with
  | nil => cases ha
  | cons b t ih =>
    rw [List.filter_cons]
    rcases List.mem_cons.mp ha with rfl | hm
    · rw [hpa]
      simp only [Bool.false_eq_true, if_false, List.length_cons]
      exact Nat.lt_succ_of_le (List.length_filter_le p t)
    · by_cases hb : p b = true
      · simp only [hb, if_true, List.length_cons]
        exact Nat.succ_lt_succ (ih hm)
      · simp only [hb, if_false, List.length_cons]
        exact Nat.lt_succ_of_lt (ih hm)

/-- With stamps strictly increasing along the list, the head carries the
minimum stamp. -/
theorem head_min_of_pairwise {α : Type} (f : α → Nat) {l : List α}
    (hs : (l.map f).Pairwise (· < ·)) {e : α} (he : l.head? = some e) :
    ∀ x ∈ l, f e ≤ f x := by
  cases l with
  | nil => cases he
  | cons a t =>
    have hae : a = e := by simpa using he
    subst hae
    intro x hx
    rcases List.mem_cons.mp hx with rfl | hx
    · exact le_refl _
    · exact le_of_lt ((List.pairwise_cons.mp (by simpa using hs)).1 (f x)
        (List.mem_map_of_mem f hx))

/-! ### Lemmas about the pieces of `put` and `get` -/

theorem setKind_map_fst (t : String) (l : List KEntry)
    (kinds : List (String × List KEntry)) :
    (setKind t l kinds).map Prod.fst = kinds.map Prod.fst := by
  unfold setKind
  rw [List.map_map]
  apply List.map_congr_left
  intro q hq
  by_cases h : (q.1 == t) = true
  · simp only [Function.comp_apply, h, if_true]
    exact (beq_iff_eq.mp h).symm
  · simp only [Function.comp_apply]
    rw [if_neg h]

theorem setKind_mem {t : String} {l : List KEntry} {kinds : List (String × List KEntry)}
    {p : String × List KEntry} (hp : p ∈ setKind t l kinds) :
    p.2 = l ∨ p ∈ kinds := by
  unfold setKind at hp
  obtain ⟨q, hq, hqe⟩ := List.mem_map.mp hp
  by_cases h : (q.1 == t) = true
  · rw [if_pos h] at hqe
    left
    rw [← hqe]
  · rw [if_neg h] at hqe
    right
    rw [← hqe]
    exact hq

theorem setKind_find? {t : String} (l : List KEntry) {kinds : List (String × List KEntry)}
    (hf : (kinds.find? (fun q => q.1 == t)).isSome = true) :
    (setKind t l kinds).find? (fun q => q.1 == t) = some (t, l) := by
  induction kinds with
  | nil => simp [List.find?] at hf
  | cons a rest ih =>
    by_cases h : (a.1 == t) = true
    · unfold setKind
      simp only [List.map_cons, if_pos h]
      rw [List.find?_cons_of_pos _ (by simp)]
    · unfold setKind at ih ⊢
      simp only [List.map_cons, if_neg h]
      rw [List.find?_cons_of_neg _ (by simpa using h)]
      apply ih
      have hfalse : (a.1 == t) = false := Bool.eq_false_iff.mpr h
      simp only [List.find?, hfalse] at hf
      exact hf

theorem putEntriesBase_sublist (key : String) (maxT : Nat) (l : List KEntry) :
    List.Sublist (putEntriesBase key maxT l) l := by
  unfold putEntriesBase
  split
  · exact List.Sublist.refl l
  · split
    · exact List.tail_sublist l
    · exact List.Sublist.refl l

theorem putEntries_length {key : String} {value clock maxT : Nat} {l : List KEntry}
    (hT : 1 ≤ maxT) (hl : l.length ≤ maxT) :
    (putEntries key value clock maxT l).length ≤ maxT := by
  unfold putEntries putEntriesBase
  by_cases hmem : l.any (fun e => e.key == key) = true
  · rw [if_pos hmem]
    obtain ⟨e, he, hkey⟩ := List.any_eq_true.mp hmem
    have hlt := length_filter_lt_of_mem he (p := fun e => e.key != key) (by simp [bne, hkey])
    rw [List.length_append]
    simp only [List.length_singleton]
    omega
  · rw [if_neg hmem]
    have hall : ∀ e ∈ l, (e.key == key) = false := by
      intro e he
      have h2 := List.any_eq_false.mp (Bool.eq_false_iff.mpr hmem) e he
      exact Bool.eq_false_iff.mpr h2
    split
    · rename_i hfull
      have hfil : l.tail.filter (fun e => e.key != key) = l.tail :=
        List.filter_eq_self.mpr
          (fun a ha => by simp [bne, hall a ((List.tail_sublist l).subset ha)])
      rw [hfil, List.length_append, List.length_tail]
      simp only [List.length_singleton]
      omega
    · rename_i hfull
      have hfil : l.filter (fun e => e.key != key) = l :=
        List.filter_eq_self.mpr (fun a ha => by simp [bne, hall a ha])
      rw [hfil, List.length_append]
      simp only [List.length_singleton]
      omega

theorem putEntries_stamps {key : String} {value clock maxT : Nat} {l : List KEntry}
    (hs : (l.map (fun e => e.stamp)).Pairwise (· < ·))
    (hb : ∀ e ∈ l, e.stamp < clock) :
    ((putEntries key value clock maxT l).map (fun e => e.stamp)).Pairwise (· < ·) ∧
      ∀ e ∈ putEntries key value clock maxT l, e.stamp < clock + 1 := by
  have hsub : List.Sublist ((putEntriesBase key maxT l).filter (fun e => e.key != key)) l :=
    (List.filter_sublist _).trans (putEntriesBase_sublist key maxT l)
  constructor
  · unfold putEntries
    rw [List.map_append, List.pairwise_append]
    refine ⟨hs.sublist (hsub.map _), by simp, ?_⟩
    intro a ha b hb2
    simp only [List.map_cons, List.map_nil, List.mem_singleton] at hb2
    subst hb2
    obtain ⟨x, hx, rfl⟩ := List.mem_map.mp ha
    exact hb x (hsub.subset hx)
  · intro e he
    unfold putEntries at he
    rcases List.mem_append.mp he with h | h
    · exact Nat.lt_succ_of_lt (hb e (hsub.subset h))
    · simp only [List.mem_singleton] at h
      rw [h]
      exact Nat.lt_succ_self clock

theorem putKinds_klen {t k : String} {v c maxT : Nat} {kinds : List (String × List KEntry)}
    (hT : 1 ≤ maxT) (h : ∀ p ∈ kinds, p.2.length ≤ maxT) :
    ∀ p ∈ putKinds t k v c maxT kinds, p.2.length ≤ maxT := by
  intro p hp
  unfold putKinds at hp
  split at hp
  · rename_i p0 hf
    rcases setKind_mem hp with h2 | h2
    · rw [h2]
      exact putEntries_length hT (h p0 (List.mem_of_find?_eq_some hf))
    · exact h p h2
  · rcases List.mem_append.mp hp with h2 | h2
    · exact h p h2
    · simp only [List.mem_singleton] at h2
      rw [h2]
      exact putEntries_length hT (by simp)

theorem putKinds_knames {t k : String} {v c maxT : Nat} {kinds : List (String × List KEntry)}
    (h : (kinds.map Prod.fst).Nodup) :
    ((putKinds t k v c maxT kinds).map Prod.fst).Nodup := by
  unfold putKinds
  split
  · rw [setKind_map_fst]
    exact h
  · rename_i hf
    rw [List.map_append, List.nodup_append]
    refine ⟨h, by simp, ?_⟩
    intro a ha
    obtain ⟨q, hq, rfl⟩ := List.mem_map.mp ha
    have := List.find?_eq_none.mp hf q hq
    simp only [List.map_cons, List.map_nil, List.mem_singleton]
    intro hqt
    exact this (by simp [hqt])

theorem putKinds_stamps {t k : String} {v clock maxT : Nat}
    {kinds : List (String × List KEntry)}
    (hs : ∀ p ∈ kinds, (p.2.map (fun e => e.stamp)).Pairwise (· < ·))
    (hb : ∀ p ∈ kinds, ∀ e ∈ p.2, e.stamp < clock) :
    (∀ p ∈ putKinds t k v clock maxT kinds,
      (p.2.map (fun e => e.stamp)).Pairwise (· < ·)) ∧
    (∀ p ∈ putKinds t k v clock maxT kinds, ∀ e ∈ p.2, e.stamp < clock + 1) := by
  constructor
  · intro p hp
    unfold putKinds at hp
    split at hp
    · rename_i p0 hf
      rcases setKind_mem hp with h2 | h2
      · rw [h2]
        exact (putEntries_stamps (hs p0 (List.mem_of_find?_eq_some hf))
          (hb p0 (List.mem_of_find?_eq_some hf))).1
      · exact hs p h2
    · rcases List.mem_append.mp hp with h2 | h2
      · exact hs p h2
      · simp only [List.mem_singleton] at h2
        rw [h2]
        exact (putEntries_stamps (l := []) (by simp) (by simp)).1
  · intro p hp e he
    unfold putKinds at hp
    split at hp
    · rename_i p0 hf
      rcases setKind_mem hp with h2 | h2
      · rw [h2] at he
        exact (putEntries_stamps (hs p0 (List.mem_of_find?_eq_some hf))
          (hb p0 (List.mem_of_find?_eq_some hf))).2 e he
      · exact Nat.lt_succ_of_lt (hb p h2 e he)
    · rcases List.mem_append.mp hp with h2 | h2
      · exact Nat.lt_succ_of_lt (hb p h2 e he)
      · simp only [List.mem_singleton] at h2
        rw [h2] at he
        exact (putEntries_stamps (l := []) (by simp) (by simp)).2 e he

/-! ### Invariant preservation -/

/-- Touching an existing user (the tail end of `put`, or a `get` hit):
remove the user from its place, append it most recently used with a fresh
stamp and updated kinds. -/
theorem touch_user_inv {maxU maxT : Nat} {s : CMState} (inv : CMInv maxU maxT s)
    {u : String} {ue : UEntry} (hf : s.users.find? (fun x => x.user == u) = some ue)
    {kinds' : List (String × List KEntry)}
    (hklen : ∀ p ∈ kinds', p.2.length ≤ maxT)
    (hknames : (kinds'.map Prod.fst).Nodup)
    (hesorted : ∀ p ∈ kinds', (p.2.map (fun e => e.stamp)).Pairwise (· < ·))
    (hebound : ∀ p ∈ kinds', ∀ e ∈ p.2, e.stamp < s.clock + 1) :
    CMInv maxU maxT
      ⟨s.users.filter (fun x => x.user != u) ++ [⟨u, kinds', s.clock⟩], s.clock + 1⟩ := by
  have hmem := List.mem_of_find?_eq_some hf
  have hbe : (ue.user == u) = true := by
    have := List.find?_some hf
    simpa using this
  have hsub : List.Sublist (s.users.filter (fun x => x.user != u)) s.users :=
    List.filter_sublist _
  have hlt : (s.users.filter (fun x => x.user != u)).length < s.users.length :=
    length_filter_lt_of_mem hmem (by simp [bne, hbe])
  refine ⟨?_, ?_, ?_, ?_, ?_, ?_, ?_, ?_⟩
  · simp only [List.length_append, List.length_singleton]
    have := inv.ulen
    omega
  · intro ue2 h2
    rcases List.mem_append.mp h2 with h3 | h3
    · exact inv.klen ue2 (hsub.subset h3)
    · simp only [List.mem_singleton] at h3
      rw [h3]
      exact hklen
  · rw [List.map_append, List.nodup_append]
    refine ⟨inv.unames.sublist (hsub.map _), by simp, ?_⟩
    intro a ha
    obtain ⟨x, hx, rfl⟩ := List.mem_map.mp ha
    have hxp : (x.user != u) = true := (List.mem_filter.mp hx).2
    simp only [List.map_cons, List.map_nil, List.mem_singleton]
    simpa using hxp
  · intro ue2 h2
    rcases List.mem_append.mp h2 with h3 | h3
    · exact inv.knames ue2 (hsub.subset h3)
    · simp only [List.mem_singleton] at h3
      rw [h3]
      exact hknames
  · rw [List.map_append, List.pairwise_append]
    refine ⟨inv.usorted.sublist (hsub.map _), by simp, ?_⟩
    intro a ha b hb
    simp only [List.map_cons, List.map_nil, List.mem_singleton] at hb
    subst hb
    obtain ⟨x, hx, rfl⟩ := List.mem_map.mp ha
    exact inv.ubound x (hsub.subset hx)
  · intro ue2 h2
    rcases List.mem_append.mp h2 with h3 | h3
    · exact Nat.lt_succ_of_lt (inv.ubound ue2 (hsub.subset h3))
    · simp only [List.mem_singleton] at h3
      rw [h3]
      exact Nat.lt_succ_self _
  · intro ue2 h2
    rcases List.mem_append.mp h2 with h3 | h3
    · exact inv.esorted ue2 (hsub.subset h3)
    · simp only [List.mem_singleton] at h3
      rw [h3]
      exact hesorted
  · intro ue2 h2 p hp e he
    rcases List.mem_append.mp h2 with h3 | h3
    · exact Nat.lt_succ_of_lt (inv.ebound ue2 (hsub.subset h3) p hp e he)
    · simp only [List.mem_singleton] at h3
      rw [h3] at hp
      exact hebound p hp e he

/-- Inserting a new user (the fresh-user branch of `put`): evict the least
recently used user when at capacity, and append the new user most recently
used. -/
theorem new_user_inv {maxU maxT : Nat} (hU : 1 ≤ maxU) {s : CMState}
    (inv : CMInv maxU maxT s) {u : String}
    (hf : s.users.find? (fun x => x.user == u) = none)
    {kinds' : List (String × List KEntry)}
    (hklen : ∀ p ∈ kinds', p.2.length ≤ maxT)
    (hknames : (kinds'.map Prod.fst).Nodup)
    (hesorted : ∀ p ∈ kinds', (p.2.map (fun e => e.stamp)).Pairwise (· < ·))
    (hebound : ∀ p ∈ kinds', ∀ e ∈ p.2, e.stamp < s.clock + 1) :
    CMInv maxU maxT
      ⟨(if maxU ≤ s.users.length then s.users.tail else s.users) ++ [⟨u, kinds', s.clock⟩],
        s.clock + 1⟩ := by
  have hsub : List.Sublist (if maxU ≤ s.users.length then s.users.tail else s.users) s.users := by
    split
    · exact List.tail_sublist _
    · exact List.Sublist.refl _
  have hblen : (if maxU ≤ s.users.length then s.users.tail else s.users).length + 1 ≤ maxU := by
    have := inv.ulen
    split
    · rw [List.length_tail]
      omega
    · omega
  have habs : ∀ x ∈ s.users, x.user ≠ u := by
    intro x hx
    have := List.find?_eq_none.mp hf x hx
    intro hc
    exact this (by simp [hc])
  refine ⟨?_, ?_, ?_, ?_, ?_, ?_, ?_, ?_⟩
  · simpa only [List.length_append, List.length_singleton] using hblen
  · intro ue2 h2
    rcases List.mem_append.mp h2 with h3 | h3
    · exact inv.klen ue2 (hsub.subset h3)
    · simp only [List.mem_singleton] at h3
      rw [h3]
      exact hklen
  · rw [List.map_append, List.nodup_append]
    refine ⟨inv.unames.sublist (hsub.map _), by simp, ?_⟩
    intro a ha
    obtain ⟨x, hx, rfl⟩ := List.mem_map.mp ha
    simp only [List.map_cons, List.map_nil, List.mem_singleton]
    exact habs x (hsub.subset hx)
  · intro ue2 h2
    rcases List.mem_append.mp h2 with h3 | h3
    · exact inv.knames ue2 (hsub.subset h3)
    · simp only [List.mem_singleton] at h3
      rw [h3]
      exact hknames
  · rw [List.map_append, List.pairwise_append]
    refine ⟨inv.usorted.sublist (hsub.map _), by simp, ?_⟩
    intro a ha b hb
    simp only [List.map_cons, List.map_nil, List.mem_singleton] at hb
    subst hb
    obtain ⟨x, hx, rfl⟩ := List.mem_map.mp ha
    exact inv.ubound x (hsub.subset hx)
  · intro ue2 h2
    rcases List.mem_append.mp h2 with h3 | h3
    · exact Nat.lt_succ_of_lt (inv.ubound ue2 (hsub.subset h3))
    · simp only [List.mem_singleton] at h3
      rw [h3]
      exact Nat.lt_succ_self _
  · intro ue2 h2
    rcases List.mem_append.mp h2 with h3 | h3
    · exact inv.esorted ue2 (hsub.subset h3)
    · simp only [List.mem_singleton] at h3
      rw [h3]
      exact hesorted
  · intro ue2 h2 p hp e he
    rcases List.mem_append.mp h2 with h3 | h3
    · exact Nat.lt_succ_of_lt (inv.ebound ue2 (hsub.subset h3) p hp e he)
    · simp only [List.mem_singleton] at h3
      rw [h3] at hp
      exact hebound p hp e he

theorem cmPut_inv {maxU maxT : Nat} (hU : 1 ≤ maxU) (hT : 1 ≤ maxT) {s : CMState}
    (inv : CMInv maxU maxT s) (u t k : String) (v : Nat) :
    CMInv maxU maxT (cmPut maxU maxT s u t k v) := by
  unfold cmPut
  cases hf : s.users.find? (fun x => x.user == u) with
  | some ue =>
    have hmem := List.mem_of_find?_eq_some hf
    exact touch_user_inv inv hf
      (putKinds_klen hT (inv.klen ue hmem))
      (putKinds_knames (inv.knames ue hmem))
      (putKinds_stamps (inv.esorted ue hmem) (inv.ebound ue hmem)).1
      (putKinds_stamps (inv.esorted ue hmem) (inv.ebound ue hmem)).2
  | none =>
    exact new_user_inv hU inv hf
      (putKinds_klen hT (by simp))
      (putKinds_knames (by simp))
      (putKinds_stamps (by simp) (by simp)).1
      (putKinds_stamps (by simp) (by simp)).2

theorem cmGet_inv {maxU maxT : Nat} {s : CMState} (inv : CMInv maxU maxT s)
    (u t k : String) : CMInv maxU maxT (cmGet s u t k).2 := by
  cases hf : s.users.find? (fun x => x.user == u) with
  | none =>
    simp only [cmGet, hf]
    exact inv
  | some ue =>
    cases hg : ue.kinds.find? (fun p => p.1 == t) with
    | none =>
      simp only [cmGet, hf, hg]
      exact inv
    | some p =>
      cases hh : p.2.find? (fun x => x.key == k) with
      | none =>
        simp only [cmGet, hf, hg, hh]
        exact inv
      | some e =>
        simp only [cmGet, hf, hg, hh]
        have hmem := List.mem_of_find?_eq_some hf
        have hpmem := List.mem_of_find?_eq_some hg
        have hin := List.mem_of_find?_eq_some hh
        have hbeq : (e.key == k) = true := by
          have := List.find?_some hh
          simpa using this
        have hlenE : ((p.2.filter (fun x => x.key != k) : List KEntry) ++
            [(⟨k, e.value, s.clock⟩ : KEntry)]).length ≤ maxT := by
          have hlt := length_filter_lt_of_mem hin
            (p := fun x => x.key != k) (by simp [bne, hbeq])
          have := inv.klen ue hmem p hpmem
          simp only [List.length_append, List.length_singleton]
          omega
        have hsortE : (((p.2.filter (fun x => x.key != k) : List KEntry) ++
            [(⟨k, e.value, s.clock⟩ : KEntry)]).map (fun x => x.stamp)).Pairwise (· < ·) := by
          rw [List.map_append, List.pairwise_append]
          refine ⟨(inv.esorted ue hmem p hpmem).sublist ((List.filter_sublist _).map _),
            by simp, ?_⟩
          intro a ha b hb
          simp only [List.map_cons, List.map_nil, List.mem_singleton] at hb
          subst hb
          obtain ⟨x, hx, rfl⟩ := List.mem_map.mp ha
          exact inv.ebound ue hmem p hpmem x ((List.filter_sublist _).subset hx)
        have hboundE : ∀ x ∈ (p.2.filter (fun x => x.key != k) : List KEntry) ++
            [(⟨k, e.value, s.clock⟩ : KEntry)], x.stamp < s.clock + 1 := by
          intro x hx
          rcases List.mem_append.mp hx with h | h
          · exact Nat.lt_succ_of_lt
              (inv.ebound ue hmem p hpmem x ((List.filter_sublist _).subset h))
          · simp only [List.mem_singleton] at h
            rw [h]
            exact Nat.lt_succ_self _
        refine touch_user_inv inv hf ?_ ?_ ?_ ?_
        · intro q hq
          rcases setKind_mem hq with h2 | h2
          · rw [h2]
            exact hlenE
          · exact inv.klen ue hmem q h2
        · rw [setKind_map_fst]
          exact inv.knames ue hmem
        · intro q hq
          rcases setKind_mem hq with h2 | h2
          · rw [h2]
            exact hsortE
          · exact inv.esorted ue hmem q h2
        · intro q hq x hx
          rcases setKind_mem hq with h2 | h2
          · rw [h2] at hx
            exact hboundE x hx
          · exact Nat.lt_succ_of_lt (inv.ebound ue hmem q h2 x hx)

theorem cmStep_inv {maxU maxT : Nat} (hU : 1 ≤ maxU) (hT : 1 ≤ maxT) {s : CMState}
    (inv : CMInv maxU maxT s) (op : CacheOp) : CMInv maxU maxT (cmStep maxU maxT s op) := by
  cases op with
  | get u t k => exact cmGet_inv inv u t k
  | put u t k v => exact cmPut_inv hU hT inv u t k v

/-- Every state reached from the empty manager satisfies the invariant. -/
theorem cmRun_inv (maxU maxT : Nat) (hU : 1 ≤ maxU) (hT : 1 ≤ maxT) (ops : List CacheOp) :
    CMInv maxU maxT (cmRun maxU maxT ops) := by
  have base : CMInv maxU maxT ⟨[], 0⟩ :=
    ⟨by simp, by simp, by simp, by simp, by simp, by simp, by simp, by simp⟩
  unfold cmRun
  suffices h : ∀ s : CMState, CMInv maxU maxT s →
      CMInv maxU maxT (List.foldl (cmStep maxU maxT) s ops) from h _ base
  induction ops with
  | nil =>
    intro s hs
    simpa using hs
  | cons op rest ih =>
    intro s hs
    simp only [List.foldl_cons]
    exact ih _ (cmStep_inv hU hT hs op)

theorem mem_of_head?_eq_some {α : Type} {l : List α} {a : α} (h : l.head? = some a) :
    a ∈ l := by
  cases l with
  | nil => cases h
  | cons b t =>
    have hba : b = a := by simpa using h
    rw [← hba]
    exact List.mem_cons_self _ _

/-! ### C3 -/

/-- C3: starting from the empty manager, after any sequence of cache calls
the number of users never exceeds the configured user capacity and the
number of keys per (user, kind) never exceeds the per-kind capacity; and
whenever a `put` evicts a user (resp. a key), the evicted entry is the
least recently touched one of its list. -/
theorem c3_cache_bounds_and_lru (maxU maxT : Nat) (hU : 1 ≤ maxU) (hT : 1 ≤ maxT)
    (ops : List CacheOp) :
    (cmRun maxU maxT ops).users.length ≤ maxU ∧
    (∀ ue ∈ (cmRun maxU maxT ops).users, ∀ p ∈ ue.kinds, p.2.length ≤ maxT) ∧
    (∀ u e, put_evicted_user maxU (cmRun maxU maxT ops) u = some e →
      e ∈ (cmRun maxU maxT ops).users ∧
      ∀ ue ∈ (cmRun maxU maxT ops).users, e.stamp ≤ ue.stamp) ∧
    (∀ u t k e, put_evicted_key maxT (cmRun maxU maxT ops) u t k = some e →
      ∀ ue ∈ (cmRun maxU maxT ops).users, ue.user = u →
        ∀ p ∈ ue.kinds, p.1 = t → e ∈ p.2 ∧ ∀ x ∈ p.2, e.stamp ≤ x.stamp) := by
  have inv := cmRun_inv maxU maxT hU hT ops
  refine ⟨inv.ulen, inv.klen, ?_, ?_⟩
  · intro u e he
    unfold put_evicted_user at he
    split at he
    · cases he
    · split at he
      · refine ⟨mem_of_head?_eq_some he, ?_⟩
        intro ue hue
        exact head_min_of_pairwise (fun x => x.stamp) inv.usorted he ue hue
      · cases he
  · intro u t k e he ue hue hueu p hp hpt
    unfold put_evicted_key at he
    split at he
    · cases he
    · rename_i ue0 hf
      split at he
      · cases he
      · rename_i p0 hg
        split at he
        · cases he
        · split at he
          · have hue0mem := List.mem_of_find?_eq_some hf
            have hue0u : ue0.user = u := by
              have := List.find?_some hf
              simpa using this
            have hueeq : ue = ue0 :=
              List.inj_on_of_nodup_map inv.unames hue hue0mem (by rw [hueu, hue0u])
            subst hueeq
            have hp0mem := List.mem_of_find?_eq_some hg
            have hp0t : p0.1 = t := by
              have := List.find?_some hg
              simpa using this
            have hpeq : p = p0 :=
              List.inj_on_of_nodup_map (inv.knames ue hue) hp hp0mem (by rw [hpt, hp0t])
            subst hpeq
            exact ⟨mem_of_head?_eq_some he,
              head_min_of_pairwise (fun x => x.stamp) (inv.esorted ue hue p hp) he⟩
          · cases he

/-- A short call sequence exercising the bounds at capacities 2/2. -/
def c3_ops : List CacheOp :=
  [.put "u1" "embedding" "k1" 1, .put "u1" "embedding" "k2" 2,
   .put "u2" "memory" "k3" 3, .get "u1" "embedding" "k1",
   .put "u3" "retrieval" "k4" 4, .put "u1" "embedding" "k5" 5]

theorem c3_cache_bounds_and_lru_witness :
    (1 ≤ 2 ∧ 1 ≤ 2) ∧
    (cmRun 2 2 c3_ops).users.length ≤ 2 ∧
    ∀ ue ∈ (cmRun 2 2 c3_ops).users, ∀ p ∈ ue.kinds, p.2.length ≤ 2 :=
  ⟨⟨by decide, by decide⟩,
    (c3_cache_bounds_and_lru 2 2 (by decide) (by decide) c3_ops).1,
    (c3_cache_bounds_and_lru 2 2 (by decide) (by decide) c3_ops).2.1⟩

/-! ### C8 -/

/-- C8: a `get` that misses — user absent, kind absent for that user, or
key absent in that kind — returns `none` and leaves the state (hence every
recency ordering) exactly as it was; a hit returns the stored value and
makes the touched user the most recent user and the touched entry the most
recent entry of its kind, stamped with the current clock. -/
theorem c8_get_miss_frame (s : CMState) (u t k : String) :
    (s.users.find? (fun x => x.user == u) = none → cmGet s u t k = (none, s)) ∧
    (∀ ue, s.users.find? (fun x => x.user == u) = some ue →
      ue.kinds.find? (fun q => q.1 == t) = none → cmGet s u t k = (none, s)) ∧
    (∀ ue p, s.users.find? (fun x => x.user == u) = some ue →
      ue.kinds.find? (fun q => q.1 == t) = some p →
      p.2.find? (fun x => x.key == k) = none → cmGet s u t k = (none, s)) ∧
    (∀ ue p e, s.users.find? (fun x => x.user == u) = some ue →
      ue.kinds.find? (fun q => q.1 == t) = some p →
      p.2.find? (fun x => x.key == k) = some e →
      (cmGet s u t k).1 = some e.value ∧
      (cmGet s u t k).2.clock = s.clock + 1 ∧
      ∃ ue2, (cmGet s u t k).2.users.getLast? = some ue2 ∧ ue2.user = u ∧
        ue2.stamp = s.clock ∧
        ∃ l, ue2.kinds.find? (fun q => q.1 == t) = some (t, l) ∧
          l.getLast? = some ⟨k, e.value, s.clock⟩) := by
  refine ⟨?_, ?_, ?_, ?_⟩
  · intro hf
    simp only [cmGet, hf]
  · intro ue hf hg
    simp only [cmGet, hf, hg]
  · intro ue p hf hg hh
    simp only [cmGet, hf, hg, hh]
  · intro ue p e hf hg hh
    simp only [cmGet, hf, hg, hh]
    refine ⟨by simp, by simp, ?_⟩
    refine ⟨⟨u, setKind t ((p.2.filter (fun x => x.key != k) : List KEntry) ++
      [(⟨k, e.value, s.clock⟩ : KEntry)]) ue.kinds, s.clock⟩, by simp, rfl, rfl, ?_⟩
    refine ⟨(p.2.filter (fun x => x.key != k) : List KEntry) ++
      [(⟨k, e.value, s.clock⟩ : KEntry)], ?_, ?_⟩
    · exact setKind_find? _ (by rw [hg]; rfl)
    · simp

theorem c8_get_miss_frame_witness :
    ((⟨[], 0⟩ : CMState).users.find? (fun x => x.user == "u1") = none) ∧
    cmGet ⟨[], 0⟩ "u1" "embedding" "h1" = (none, ⟨[], 0⟩) :=
  ⟨rfl, (c8_get_miss_frame ⟨[], 0⟩ "u1" "embedding" "h1").1 rfl⟩

end MemorySystem
